import Mathlib

/-!
Shallow embedding of the SHINE repository evaluation code.

Sources embedded here:
  * `src/Performance_Evaluation.ipynb`: `calculate_psnr`, `ssim`,
    `calculate_ssim`, `calculate_snr`, and the SNR evaluation loop writing
    the result array.
  * `src/unnamed/part_000` (noise-statistics notebook):
    `compute_correlation_for_distance`, `relative_distance_correlation`,
    `spatial_correlation_heatmap` and its inner `corr`.

Numpy float arrays are modelled as real-valued functions over finite index
types; `np.roll` with cyclic wrap-around is modelled with `ZMod` indices.
Machine floating point is idealised as real arithmetic.
-/

open Finset Filter Real

/-- Mean of a Python list of floats, `np.mean(lst) = sum / len`
(with the junk value `0/0 = 0` for the empty list). -/
noncomputable def listMean (l : List ℝ) : ℝ := l.sum / (l.length : ℝ)

/-- Population standard deviation of a list, `np.std(lst)`:
square root of the mean squared deviation from the mean. -/
noncomputable def listStd (l : List ℝ) : ℝ :=
  Real.sqrt (listMean (l.map (fun x => (x - listMean l) ^ 2)))

/-- Mean of an array viewed as a function over a finite index type,
`np.mean(a) = sum / size`. -/
noncomputable def fmean {ι : Type*} [Fintype ι] (x : ι → ℝ) : ℝ :=
  (∑ i, x i) / (Fintype.card ι : ℝ)

/-- Sum of products of mean-centered entries, the common numerator of all
correlation expressions in the sources. -/
noncomputable def centeredDot {ι : Type*} [Fintype ι] (x y : ι → ℝ) : ℝ :=
  ∑ i, (x i - fmean x) * (y i - fmean y)

/-- Sum of squared deviations from the mean. -/
noncomputable def centeredSq {ι : Type*} [Fintype ι] (x : ι → ℝ) : ℝ :=
  ∑ i, (x i - fmean x) ^ 2

/-- Off-diagonal entry of `np.corrcoef(x, y)`: covariance divided by the
square root of the product of the variances (the `1/(n-1)` factors of
`np.cov` cancel, leaving sums of centered products). -/
noncomputable def corrcoef {ι : Type*} [Fintype ι] (x y : ι → ℝ) : ℝ :=
  centeredDot x y / Real.sqrt (centeredSq x * centeredSq y)

/-- Modelled from the spec: the "Pearson correlation r between mean-centered
pixel intensities", in its standard form with the two root factors split:
`r = Σ(x-x̄)(y-ȳ) / (√Σ(x-x̄)² · √Σ(y-ȳ)²)`. -/
noncomputable def pearsonCorrelation {ι : Type*} [Fintype ι] (x y : ι → ℝ) : ℝ :=
  centeredDot x y / (Real.sqrt (centeredSq x) * Real.sqrt (centeredSq y))

/-- The helper `corr(x, y)` defined inside `spatial_correlation_heatmap`:
both vectors are mean-centered, then
`np.sum(x*y) / (np.sqrt(np.sum(x**2)) * np.sqrt(np.sum(y**2)))`. -/
noncomputable def corr {ι : Type*} [Fintype ι] (x y : ι → ℝ) : ℝ :=
  centeredDot x y / (Real.sqrt (centeredSq x) * Real.sqrt (centeredSq y))

lemma centeredSq_nonneg {ι : Type*} [Fintype ι] (x : ι → ℝ) : 0 ≤ centeredSq x :=
  Finset.sum_nonneg fun _ _ => sq_nonneg _

lemma corrcoef_eq_pearsonCorrelation {ι : Type*} [Fintype ι] (x y : ι → ℝ) :
    corrcoef x y = pearsonCorrelation x y := by
  unfold corrcoef pearsonCorrelation
  rw [Real.sqrt_mul (centeredSq_nonneg x)]

lemma centeredDot_comm {ι : Type*} [Fintype ι] (x y : ι → ℝ) :
    centeredDot x y = centeredDot y x := by
  unfold centeredDot
  exact Finset.sum_congr rfl fun i _ => mul_comm _ _

/-- If a vector takes two distinct values then its centered sum of squares
is nonzero. -/
lemma centeredSq_ne_zero {ι : Type*} [Fintype ι] (x : ι → ℝ)
    (h : ∃ a b, x a ≠ x b) : centeredSq x ≠ 0 := by
  intro hzero
  obtain ⟨a, b, hab⟩ := h
  have hall : ∀ i ∈ Finset.univ, (x i - fmean x) ^ 2 = 0 := by
    rw [← Finset.sum_eq_zero_iff_of_nonneg fun i _ => sq_nonneg (x i - fmean x)]
    exact hzero
  have hconst : ∀ i : ι, x i = fmean x := by
    intro i
    have := hall i (Finset.mem_univ i)
    have := pow_eq_zero_iff (n := 2) (by norm_num) |>.mp this
    linarith [this]
  exact hab ((hconst a).trans (hconst b).symm)

/-- Cauchy–Schwarz bound for the source correlation: whenever both centered
sums of squares are nonzero, `corr x y` lies in `[-1, 1]`. -/
lemma corr_mem_Icc {ι : Type*} [Fintype ι] (x y : ι → ℝ)
    (hx : centeredSq x ≠ 0) (hy : centeredSq y ≠ 0) :
    corr x y ∈ Set.Icc (-1 : ℝ) 1 := by
  have hx' : 0 < centeredSq x := lt_of_le_of_ne (centeredSq_nonneg x) (Ne.symm hx)
  have hy' : 0 < centeredSq y := lt_of_le_of_ne (centeredSq_nonneg y) (Ne.symm hy)
  have hsx : 0 < Real.sqrt (centeredSq x) := Real.sqrt_pos.mpr hx'
  have hsy : 0 < Real.sqrt (centeredSq y) := Real.sqrt_pos.mpr hy'
  have hden : 0 < Real.sqrt (centeredSq x) * Real.sqrt (centeredSq y) :=
    mul_pos hsx hsy
  have hcs : (centeredDot x y) ^ 2 ≤ centeredSq x * centeredSq y := by
    have := Finset.sum_mul_sq_le_sq_mul_sq Finset.univ
      (fun i => x i - fmean x) (fun i => y i - fmean y)
    simpa [centeredDot, centeredSq] using this
  have habs : |centeredDot x y| ≤ Real.sqrt (centeredSq x) * Real.sqrt (centeredSq y) := by
    have h1 : |centeredDot x y| ≤ Real.sqrt (centeredSq x * centeredSq y) :=
      Real.abs_le_sqrt hcs
    rwa [Real.sqrt_mul (centeredSq_nonneg x)] at h1
  have hb : |corr x y| ≤ 1 := by
    unfold corr
    rw [abs_div]
    rw [abs_of_pos hden]
    exact (div_le_one hden).mpr habs
  exact ⟨neg_le_of_abs_le hb, le_of_abs_le hb⟩

/-- Reindexing along an equivalence leaves the mean unchanged. -/
lemma fmean_comp_equiv {ι : Type*} [Fintype ι] (x : ι → ℝ) (σ : ι ≃ ι) :
    fmean (fun i => x (σ i)) = fmean x := by
  unfold fmean
  rw [Equiv.sum_comp σ x]

/-- Reindexing along an equivalence leaves the centered sum of squares
unchanged. -/
lemma centeredSq_comp_equiv {ι : Type*} [Fintype ι] (x : ι → ℝ) (σ : ι ≃ ι) :
    centeredSq (fun i => x (σ i)) = centeredSq x := by
  unfold centeredSq
  rw [fmean_comp_equiv x σ]
  exact Equiv.sum_comp σ (fun j => (x j - fmean x) ^ 2)

/-- The source correlation of a vector with its image under an equivalence
agrees with the correlation with the image under the inverse equivalence. -/
lemma corr_comp_equiv_symm {ι : Type*} [Fintype ι] (x : ι → ℝ) (σ : ι ≃ ι) :
    corr x (fun i => x (σ i)) = corr x (fun i => x (σ.symm i)) := by
  unfold corr
  rw [centeredSq_comp_equiv x σ, centeredSq_comp_equiv x σ.symm]
  have hdot : centeredDot x (fun i => x (σ i)) = centeredDot x (fun i => x (σ.symm i)) := by
    unfold centeredDot
    rw [fmean_comp_equiv x σ, fmean_comp_equiv x σ.symm]
    have := Equiv.sum_comp σ (fun j => (x j - fmean x) * (x (σ.symm j) - fmean x))
    calc ∑ i, (x i - fmean x) * (x (σ i) - fmean x)
        = ∑ i, (x (σ i) - fmean x) * (x (σ.symm (σ i)) - fmean x) := by
          refine Finset.sum_congr rfl fun i _ => ?_
          rw [Equiv.symm_apply_apply]
          exact mul_comm _ _
      _ = ∑ j, (x j - fmean x) * (x (σ.symm j) - fmean x) := this
  rw [hdot]

/-- Weighted second-moment inequality: for nonnegative weights summing to 1,
the square of the weighted mean is at most the weighted mean of squares.
This is the statement that a windowed variance is nonnegative. -/
lemma weighted_sq_mean_le {ι : Type*} [Fintype ι] (w f : ι → ℝ)
    (hw : ∀ i, 0 ≤ w i) (hsum : ∑ i, w i = 1) :
    (∑ i, w i * f i) ^ 2 ≤ ∑ i, w i * f i ^ 2 := by
  set μ := ∑ i, w i * f i with hμ
  have expand : ∑ i, w i * (f i - μ) ^ 2
      = (∑ i, w i * f i ^ 2) - 2 * μ * (∑ i, w i * f i) + μ ^ 2 * (∑ i, w i) := by
    have hpt : ∀ i ∈ Finset.univ,
        w i * (f i - μ) ^ 2 = w i * f i ^ 2 - 2 * μ * (w i * f i) + μ ^ 2 * w i :=
      fun i _ => by ring
    rw [Finset.sum_congr rfl hpt, Finset.sum_add_distrib, Finset.sum_sub_distrib,
      ← Finset.mul_sum, ← Finset.mul_sum]
  have hnn : 0 ≤ ∑ i, w i * (f i - μ) ^ 2 :=
    Finset.sum_nonneg fun i _ => mul_nonneg (hw i) (sq_nonneg _)
  rw [expand, hsum, ← hμ] at hnn
  nlinarith [hnn]

/-! ### `Performance_Evaluation.ipynb`: PSNR -/

/-- Source line `mse = np.mean((img1 - img2)**2)` of `calculate_psnr`:
mean squared pixel difference of two same-shape 2D images. -/
noncomputable def mseOf {m n : ℕ} (img1 img2 : Fin m → Fin n → ℝ) : ℝ :=
  (∑ i, ∑ j, (img1 i j - img2 i j) ^ 2) / ((m * n : ℕ) : ℝ)

open Classical in
/-- Python `calculate_psnr(img1, img2)`: returns `float('inf')` (modelled as
`⊤ : EReal`) when the MSE is zero, else `20 * log10(255.0 / sqrt(mse))`. -/
noncomputable def calculate_psnr {m n : ℕ} (img1 img2 : Fin m → Fin n → ℝ) : EReal :=
  if mseOf img1 img2 = 0 then ⊤
  else ((20 * Real.logb 10 (255 / Real.sqrt (mseOf img1 img2)) : ℝ) : EReal)

/-! ### `Performance_Evaluation.ipynb`: SSIM

`ssim(img1, img2)` builds an 11×11 Gaussian window
(`cv.getGaussianKernel(11, 1.5)`, outer product with itself), filters the
images and their squares/product with `cv.filter2D`, crops `[5:-5, 5:-5]`,
and averages the pointwise SSIM map.  For an 11-wide kernel the `[5:-5]`
crop removes exactly the border pixels whose filter response depends on
`cv.filter2D` padding, so on the cropped region `filter2D` is the plain
valid-window weighted sum used below. -/

/-- Unnormalized entries of `cv.getGaussianKernel(11, 1.5)`:
`exp(-(i-5)^2 / (2 * 1.5^2))` for `i = 0..10`. -/
noncomputable def gaussianRaw (i : Fin 11) : ℝ :=
  Real.exp (-(((i : ℕ) : ℝ) - 5) ^ 2 / (2 * (1.5 : ℝ) ^ 2))

/-- `cv.getGaussianKernel(11, 1.5)`: the Gaussian samples normalized so the
kernel sums to 1. -/
noncomputable def gaussKernel (i : Fin 11) : ℝ :=
  gaussianRaw i / (∑ j, gaussianRaw j)

/-- Source line `window = np.outer(kernel, kernel.transpose())`. -/
noncomputable def ssimWindow (a b : Fin 11) : ℝ := gaussKernel a * gaussKernel b

lemma gaussianRaw_pos (i : Fin 11) : 0 < gaussianRaw i := Real.exp_pos _

lemma sum_gaussianRaw_pos : 0 < ∑ j, gaussianRaw j :=
  Finset.sum_pos (fun j _ => gaussianRaw_pos j) Finset.univ_nonempty

lemma gaussKernel_pos (i : Fin 11) : 0 < gaussKernel i :=
  div_pos (gaussianRaw_pos i) sum_gaussianRaw_pos

lemma sum_gaussKernel : ∑ i, gaussKernel i = 1 := by
  unfold gaussKernel
  rw [← Finset.sum_div]
  exact div_self (ne_of_gt sum_gaussianRaw_pos)

lemma ssimWindow_nonneg (a b : Fin 11) : 0 ≤ ssimWindow a b :=
  le_of_lt (mul_pos (gaussKernel_pos a) (gaussKernel_pos b))

lemma sum_ssimWindow : ∑ a, ∑ b, ssimWindow a b = 1 := by
  unfold ssimWindow
  rw [← Finset.sum_mul_sum]
  rw [sum_gaussKernel]
  norm_num

/-- Source index reached by window tap `a` at cropped output coordinate `i`:
original pixel `(i + 5) + (a - 5) = i + a`, always in range. -/
def cropIdx {m : ℕ} (i : Fin (m - 10)) (a : Fin 11) : Fin m :=
  ⟨i.1 + a.1, by have h1 := i.2; have h2 := a.2; omega⟩

/-- Valid-region windowed sum: the value of `cv.filter2D(img, -1, window)`
at cropped output pixel `(i, j)` (original pixel `(i+5, j+5)`), where every
window tap stays inside the image. -/
noncomputable def windowedSum {m n : ℕ} (img : Fin m → Fin n → ℝ)
    (i : Fin (m - 10)) (j : Fin (n - 10)) : ℝ :=
  ∑ a : Fin 11, ∑ b : Fin 11, ssimWindow a b * img (cropIdx i a) (cropIdx j b)

/-- Source constant `C1 = (0.01 * 255)**2` of `ssim`. -/
noncomputable def ssimC1 : ℝ := ((0.01 : ℝ) * 255) ^ 2

/-- Source constant `C2 = (0.03 * 255)**2` of `ssim`. -/
noncomputable def ssimC2 : ℝ := ((0.03 : ℝ) * 255) ^ 2

/-- Pointwise value of `ssim_map` at a cropped pixel, from the source lines
computing `mu1, mu2, sigma1_sq, sigma2_sq, sigma12` and
`ssim_map = ((2*mu1_mu2 + C1)*(2*sigma12 + C2)) /
            ((mu1_sq + mu2_sq + C1)*(sigma1_sq + sigma2_sq + C2))`. -/
noncomputable def ssimMap {m n : ℕ} (img1 img2 : Fin m → Fin n → ℝ)
    (i : Fin (m - 10)) (j : Fin (n - 10)) : ℝ :=
  let mu1 := windowedSum img1 i j
  let mu2 := windowedSum img2 i j
  let sigma1_sq := windowedSum (fun a b => img1 a b ^ 2) i j - mu1 ^ 2
  let sigma2_sq := windowedSum (fun a b => img2 a b ^ 2) i j - mu2 ^ 2
  let sigma12 := windowedSum (fun a b => img1 a b * img2 a b) i j - mu1 * mu2
  ((2 * mu1 * mu2 + ssimC1) * (2 * sigma12 + ssimC2)) /
    ((mu1 ^ 2 + mu2 ^ 2 + ssimC1) * (sigma1_sq + sigma2_sq + ssimC2))

/-- Python `ssim(img1, img2)` on 2D arrays: `ssim_map.mean()` over the
cropped `(m-10) × (n-10)` region. -/
noncomputable def ssim {m n : ℕ} (img1 img2 : Fin m → Fin n → ℝ) : ℝ :=
  (∑ i, ∑ j, ssimMap img1 img2 i j) / (((m - 10) * (n - 10) : ℕ) : ℝ)

/-- Python `ssim(img1, img2)` applied to 3-channel arrays: `cv.filter2D`
filters each channel independently and `ssim_map.mean()` averages over all
`(m-10) × (n-10) × 3` entries. -/
noncomputable def ssim3 {m n : ℕ} (img1 img2 : Fin m → Fin n → Fin 3 → ℝ) : ℝ :=
  (∑ c : Fin 3, ∑ i, ∑ j,
      ssimMap (fun a b => img1 a b c) (fun a b => img2 a b c) i j) /
    (((m - 10) * (n - 10) * 3 : ℕ) : ℝ)

/-- A numpy ndarray as the notebook sees it: a shape together with the data
addressed by index lists (only indices matching the shape are relevant). -/
structure NDImage where
  shape : List ℕ
  data : List ℕ → ℝ

/-- View of a 2D ndarray as a function on its index grid. -/
def view2 (m n : ℕ) (d : List ℕ → ℝ) : Fin m → Fin n → ℝ :=
  fun i j => d [i.1, j.1]

/-- View of a 3D ndarray as a function on its index grid. -/
def view3 (m n c : ℕ) (d : List ℕ → ℝ) : Fin m → Fin n → Fin c → ℝ :=
  fun i j k => d [i.1, j.1, k.1]

/-- View of an `(m, n, 1)` ndarray after `np.squeeze`: the third index is
pinned to 0. -/
def view3sq (m n : ℕ) (d : List ℕ → ℝ) : Fin m → Fin n → ℝ :=
  fun i j => d [i.1, j.1, 0]

/-- Python `calculate_ssim(img1, img2)`.  Mirrors the source dispatch:
shape mismatch raises; `ndim == 2` returns `ssim`; `ndim == 3` with 3
channels appends `ssim(img1, img2)` (the unsliced full arrays) three times
and returns the mean; `ndim == 3` with 1 channel squeezes; `ndim == 3` with
any other channel count falls through every branch and returns Python
`None` (modelled `Except.ok none`); any other `ndim` raises. -/
noncomputable def calculate_ssim (img1 img2 : NDImage) : Except String (Option ℝ) :=
  if img1.shape ≠ img2.shape then
    Except.error "Input images must have the same dimensions."
  else
    match img1.shape with
    | [m, n] => Except.ok (some (ssim (view2 m n img1.data) (view2 m n img2.data)))
    | [m, n, c] =>
        if c = 3 then
          Except.ok (some (listMean
            [ssim3 (view3 m n 3 img1.data) (view3 m n 3 img2.data),
             ssim3 (view3 m n 3 img1.data) (view3 m n 3 img2.data),
             ssim3 (view3 m n 3 img1.data) (view3 m n 3 img2.data)]))
        else if c = 1 then
          Except.ok (some (ssim (view3sq m n img1.data) (view3sq m n img2.data)))
        else
          Except.ok none
    | _ => Except.error "Wrong input image dimensions."

/-! ### `Performance_Evaluation.ipynb`: cross-correlation SNR -/

/-- The correlation `r` computed inside `calculate_snr`:
`np.mean((img1-mean1)*(img2-mean2)) /
 np.sqrt(np.mean((img1-mean1)**2) * np.mean((img2-mean2)**2))`.
The two frames are modelled as flat pixel vectors. -/
noncomputable def snrR {k : ℕ} (img1 img2 : Fin k → ℝ) : ℝ :=
  fmean (fun i => (img1 i - fmean img1) * (img2 i - fmean img2)) /
    Real.sqrt (fmean (fun i => (img1 i - fmean img1) ^ 2) *
               fmean (fun i => (img2 i - fmean img2) ^ 2))

/-- The value returned by `calculate_snr`: `10 * np.log10(r / (1 - r))`. -/
noncomputable def snrOfR (r : ℝ) : ℝ := 10 * Real.logb 10 (r / (1 - r))

open Classical in
/-- Python `calculate_snr(img1, img2)` on two frames (the file loading is
outside the model): second component is the diagnostic output, nonempty
exactly when `r < 0` (the source then `print`s and continues); the returned
value is `10 * np.log10(r / (1 - r))` in every case. -/
noncomputable def calculate_snr {k : ℕ} (img1 img2 : Fin k → ℝ) : ℝ × List String :=
  (snrOfR (snrR img1 img2),
   if snrR img1 img2 < 0 then ["negative correlation diagnostic"] else [])

/-! ### `Performance_Evaluation.ipynb`: SNR evaluation loop

The real-dataset cell allocates `snr_noisy = np.zeros(num_img + 1)`, fills
`snr_noisy[i + 2]` with the SNR of adjacent frames `i` and `i + 1` for
`i in range(num_img - 1)`, then overwrites `snr_noisy[0]` with
`np.mean(snr_noisy[2:])` and `snr_noisy[1]` with `np.std(snr_noisy[2:])`.
The Python frame list is modelled as an `ℕ`-indexed family of frames (the
loop only touches indices `0 .. num_img - 1`). -/

/-- SNR value of the adjacent frame pair `(i, i+1)` used in the loop body
`snr_noisy[i + 2] = calculate_snr(noisy_list[i], noisy_list[i + 1])`. -/
noncomputable def snrPair {k : ℕ} (frames : ℕ → Fin k → ℝ) (i : ℕ) : ℝ :=
  (calculate_snr (frames i) (frames (i + 1))).1

/-- State of the `snr_noisy` array after the `for i in range(num_img - 1)`
loop (before the mean/std entries are written). -/
noncomputable def snrLoopResult {k : ℕ} (frames : ℕ → Fin k → ℝ) (num_img : ℕ) : List ℝ :=
  (List.range (num_img - 1)).foldl
    (fun arr i => arr.set (i + 2) (snrPair frames i))
    (List.replicate (num_img + 1) 0)

/-- Final `snr_noisy` array as written to the text file: the loop result
with index 0 overwritten by `np.mean(snr_noisy[2:])` and then index 1 by
`np.std(snr_noisy[2:])`. -/
noncomputable def snrResultArray {k : ℕ} (frames : ℕ → Fin k → ℝ) (num_img : ℕ) : List ℝ :=
  let arr := snrLoopResult frames num_img
  let arr0 := arr.set 0 (listMean (arr.drop 2))
  arr0.set 1 (listStd (arr0.drop 2))

/-! ### `src/unnamed/part_000`: noise statistics estimation

Images here are cyclically shifted by `np.roll`, so they are modelled with
`ZMod` indices (`np.roll(a, s)[i] = a[(i - s) mod len]`). -/

/-- `np.roll(img, shift=(dx, dy), axis=(0, 1))` on a 2D array. -/
def roll {m n : ℕ} (dx dy : ℤ) (img : ZMod m → ZMod n → ℝ) :
    ZMod m → ZMod n → ℝ :=
  fun i j => img (i - (dx : ZMod m)) (j - (dy : ZMod n))

/-- `img.flatten()`: the 2D array as a vector over the product index (sums
and means over it agree with any flattening order). -/
def flattenImage {m n : ℕ} (img : ZMod m → ZMod n → ℝ) : ZMod m × ZMod n → ℝ :=
  fun p => img p.1 p.2

/-- The column `col` of an image, `img[:, col]`. -/
def column {m n : ℕ} (img : ZMod m → ZMod n → ℝ) (col : ℕ) : ZMod m → ℝ :=
  fun i => img i (col : ZMod n)

/-- The list comprehension
`[np.corrcoef(noise_img[:, col], shifted[:, col])[0, 1] for col in range(shape[1])]`
inside `compute_correlation_for_distance`, for shift `(dx, dy)`. -/
noncomputable def colCorrelations {m n : ℕ} [NeZero m]
    (noise_img : ZMod m → ZMod n → ℝ) (dx dy : ℕ) : List ℝ :=
  (List.range n).map fun col =>
    corrcoef (column noise_img col) (column (roll (dx : ℤ) (dy : ℤ) noise_img) col)

/-- Python `compute_correlation_for_distance(noise_img, distance)`: appends
`1.0` for the `(0, 0)` shift and the mean column-wise correlation for every
other shift `(dx, dy)` with `0 ≤ dx, dy ≤ distance`, then takes the mean of
the collected list. -/
noncomputable def compute_correlation_for_distance {m n : ℕ} [NeZero m]
    (noise_img : ZMod m → ZMod n → ℝ) (distance : ℕ) : ℝ :=
  listMean ((List.range (distance + 1)).flatMap fun dx =>
    (List.range (distance + 1)).map fun dy =>
      if dx = 0 ∧ dy = 0 then 1 else listMean (colCorrelations noise_img dx dy))

/-- Python `relative_distance_correlation(image_tensor, max_distance)`: the
list of `compute_correlation_for_distance` values for
`distance in range(1, max_distance + 1)`. -/
noncomputable def relative_distance_correlation {m n : ℕ} [NeZero m]
    (image_tensor : ZMod m → ZMod n → ℝ) (max_distance : ℕ) : List ℝ :=
  (List.range' 1 max_distance).map fun distance =>
    compute_correlation_for_distance image_tensor distance

/-- Modelled from the spec: the scalar for distance `d` is the mean, over
all offsets `(dx, dy)` with `0 ≤ dx ≤ d` and `0 ≤ dy ≤ d`, of the per-offset
average column-wise Pearson correlation between the image and its cyclic
shift by `(dx, dy)`, the `(0, 0)` offset contributing `1.0` exactly. -/
noncomputable def specDistanceCorrelation {m n : ℕ} [NeZero m]
    (img : ZMod m → ZMod n → ℝ) (d : ℕ) : ℝ :=
  (∑ dx ∈ Finset.range (d + 1), ∑ dy ∈ Finset.range (d + 1),
      if dx = 0 ∧ dy = 0 then 1
      else (∑ col ∈ Finset.range n,
              pearsonCorrelation (column img col)
                (column (roll (dx : ℤ) (dy : ℤ) img) col)) / (n : ℝ)) /
    (((d + 1) * (d + 1) : ℕ) : ℝ)

/-- Python `spatial_correlation_heatmap(image_tensor, max_distance)`: a
`(2*max_distance+1)²` array; the entry at `[dx + max_distance, dy + max_distance]`
is `1.0` for `(dx, dy) = (0, 0)` and otherwise the `corr` of the flattened
image with the flattened `np.roll(image_tensor, (dx, dy), (0, 1))`. -/
noncomputable def spatial_correlation_heatmap {m n : ℕ} [NeZero m] [NeZero n]
    (image_tensor : ZMod m → ZMod n → ℝ) (max_distance : ℕ) :
    Fin (2 * max_distance + 1) → Fin (2 * max_distance + 1) → ℝ :=
  fun p q =>
    let dx : ℤ := (p.1 : ℤ) - (max_distance : ℤ)
    let dy : ℤ := (q.1 : ℤ) - (max_distance : ℤ)
    if dx = 0 ∧ dy = 0 then 1
    else corr (flattenImage image_tensor) (flattenImage (roll dx dy image_tensor))

/-! ### Claim theorems -/

lemma listMean_three (x : ℝ) : listMean [x, x, x] = x := by
  unfold listMean
  simp only [List.sum_cons, List.sum_nil, List.length_cons, List.length_nil]
  norm_num
  linarith

/-- C1: for every pair of same-shape 3-channel images, `calculate_ssim`
appends the same unsliced full-array SSIM three times and averages the three
identical values, so its result equals `ssim(img1, img2)` applied once to
the full arrays. -/
theorem C1_calculate_ssim_three_channel (m n : ℕ) (d1 d2 : List ℕ → ℝ) :
    calculate_ssim ⟨[m, n, 3], d1⟩ ⟨[m, n, 3], d2⟩ =
      Except.ok (some (ssim3 (view3 m n 3 d1) (view3 m n 3 d2))) := by
  unfold calculate_ssim
  simp [listMean_three]

/-- Pure algebra: a ratio of means equals the corresponding ratio of sums
when the common positive count is cancelled inside the square root. -/
lemma mean_ratio_eq (A B C K : ℝ) (hA : 0 ≤ A) (hB : 0 ≤ B) (hK : 0 < K) :
    (C / K) / Real.sqrt ((A / K) * (B / K)) = C / (Real.sqrt A * Real.sqrt B) := by
  have h2 : (A / K) * (B / K) = (A * B) / K ^ 2 := by ring
  rw [h2, Real.sqrt_div (mul_nonneg hA hB), Real.sqrt_sq hK.le, Real.sqrt_mul hA]
  rcases eq_or_ne (Real.sqrt A * Real.sqrt B) 0 with h | h
  · rw [h]
    simp
  · field_simp

/-- The mean-based correlation computed inside `calculate_snr` equals the
standard sum-based Pearson correlation. -/
lemma snrR_eq_pearsonCorrelation {k : ℕ} (hk : 0 < k) (x y : Fin k → ℝ) :
    snrR x y = pearsonCorrelation x y := by
  have hK : (0:ℝ) < (k:ℝ) := by exact_mod_cast hk
  have h1 : snrR x y = (centeredDot x y / (k:ℝ)) /
      Real.sqrt ((centeredSq x / (k:ℝ)) * (centeredSq y / (k:ℝ))) := by
    simp only [snrR, fmean, centeredDot, centeredSq, Fintype.card_fin]
  rw [h1, mean_ratio_eq _ _ _ _ (centeredSq_nonneg x) (centeredSq_nonneg y) hK]
  rfl

/-- C2: `calculate_snr` returns `10·log10(r/(1−r))` with `r` the Pearson
correlation of the mean-centered intensities; for `r < 0` it raises nothing,
only emits a diagnostic, and still returns the same logarithm expression. -/
theorem C2_calculate_snr_formula {k : ℕ} (img1 img2 : Fin k → ℝ) (hk : 0 < k) :
    (calculate_snr img1 img2).1 =
      10 * Real.logb 10 (pearsonCorrelation img1 img2 /
        (1 - pearsonCorrelation img1 img2)) ∧
    ((calculate_snr img1 img2).2 ≠ [] ↔ snrR img1 img2 < 0) := by
  constructor
  · show snrOfR (snrR img1 img2) = _
    rw [snrR_eq_pearsonCorrelation hk]
    rfl
  · show (if snrR img1 img2 < 0 then
        ["negative correlation diagnostic"] else ([] : List String)) ≠ [] ↔ _
    split <;> rename_i h <;> simp [h]

/-- Witness for C2 at two concrete single-pixel frames. -/
theorem C2_witness :
    (calculate_snr (fun _ : Fin 1 => (0:ℝ)) (fun _ : Fin 1 => (1:ℝ))).1 =
      10 * Real.logb 10 (pearsonCorrelation (fun _ : Fin 1 => (0:ℝ)) (fun _ : Fin 1 => (1:ℝ)) /
        (1 - pearsonCorrelation (fun _ : Fin 1 => (0:ℝ)) (fun _ : Fin 1 => (1:ℝ)))) ∧
    ((calculate_snr (fun _ : Fin 1 => (0:ℝ)) (fun _ : Fin 1 => (1:ℝ))).2 ≠ [] ↔
      snrR (fun _ : Fin 1 => (0:ℝ)) (fun _ : Fin 1 => (1:ℝ)) < 0) :=
  C2_calculate_snr_formula _ _ (by norm_num)

/-- The MSE of two images vanishes exactly when the images are equal. -/
lemma mseOf_eq_zero_iff {m n : ℕ} (hm : 0 < m) (hn : 0 < n)
    (x y : Fin m → Fin n → ℝ) : mseOf x y = 0 ↔ x = y := by
  have hmn : (0:ℝ) < ((m * n : ℕ) : ℝ) := by
    exact_mod_cast Nat.mul_pos hm hn
  unfold mseOf
  constructor
  · intro h
    rcases div_eq_zero_iff.mp h with hs | hc
    · have h1 := (Finset.sum_eq_zero_iff_of_nonneg
        (fun i _ => Finset.sum_nonneg fun j _ => sq_nonneg (x i j - y i j))).mp hs
      funext i j
      have h2 := (Finset.sum_eq_zero_iff_of_nonneg
        (fun j _ => sq_nonneg (x i j - y i j))).mp (h1 i (Finset.mem_univ i)) j
        (Finset.mem_univ j)
      have h3 := pow_eq_zero_iff (n := 2) (by norm_num) |>.mp h2
      linarith [h3]
    · exact absurd hc (ne_of_gt hmn)
  · intro h
    subst h
    simp

/-- C5: `calculate_psnr` returns `+∞` when the two images are identical and
`20·log10(255/√MSE)` otherwise, with MSE the mean squared pixel difference. -/
theorem C5_calculate_psnr {m n : ℕ} (x y : Fin m → Fin n → ℝ)
    (hm : 0 < m) (hn : 0 < n) :
    (x = y → calculate_psnr x y = ⊤) ∧
    (x ≠ y → calculate_psnr x y =
      ((20 * Real.logb 10 (255 / Real.sqrt (mseOf x y)) : ℝ) : EReal)) := by
  constructor
  · intro h
    simp only [calculate_psnr]
    rw [if_pos ((mseOf_eq_zero_iff hm hn x y).mpr h)]
  · intro h
    simp only [calculate_psnr]
    rw [if_neg (fun hc => h ((mseOf_eq_zero_iff hm hn x y).mp hc))]

/-- Witness for C5 at a concrete pair of identical 1×1 images. -/
theorem C5_witness :
    calculate_psnr (fun _ : Fin 1 => fun _ : Fin 1 => (7:ℝ))
      (fun _ : Fin 1 => fun _ : Fin 1 => (7:ℝ)) = ⊤ :=
  (C5_calculate_psnr _ _ (by norm_num) (by norm_num)).1 rfl

lemma snrR_comm {k : ℕ} (x y : Fin k → ℝ) : snrR x y = snrR y x := by
  unfold snrR
  have h1 : (fun i => (x i - fmean x) * (y i - fmean y)) =
      (fun i => (y i - fmean y) * (x i - fmean x)) :=
    funext fun i => mul_comm _ _
  rw [h1, mul_comm (fmean fun i => (x i - fmean x) ^ 2) _]

/-- C8: `calculate_snr` is symmetric in its two arguments, and the returned
expression `10·log10(r/(1−r))` tends to `+∞` as the correlation `r`
approaches 1 from below. -/
theorem C8_snr_symmetric_divergent :
    (∀ (k : ℕ) (a b : Fin k → ℝ), calculate_snr a b = calculate_snr b a) ∧
    Filter.Tendsto snrOfR (nhdsWithin 1 (Set.Iio 1)) Filter.atTop := by
  constructor
  · intro k a b
    simp only [calculate_snr, snrR_comm a b]
  · have h0 : Tendsto (fun r : ℝ => 1 - r) (nhdsWithin 1 (Set.Iio 1))
        (nhdsWithin 0 (Set.Ioi 0)) := by
      rw [tendsto_nhdsWithin_iff]
      constructor
      · have hbase : Tendsto (fun r : ℝ => 1 - r) (nhds 1) (nhds (1 - 1)) :=
          tendsto_const_nhds.sub tendsto_id
        simpa using hbase.mono_left nhdsWithin_le_nhds
      · filter_upwards [eventually_mem_nhdsWithin] with r hr
        exact sub_pos.mpr (Set.mem_Iio.mp hr)
    have h1 : Tendsto (fun r : ℝ => (1 - r)⁻¹) (nhdsWithin 1 (Set.Iio 1)) atTop :=
      tendsto_inv_zero_atTop.comp h0
    have h2 : Tendsto (fun r : ℝ => r) (nhdsWithin 1 (Set.Iio 1)) (nhds 1) :=
      tendsto_id.mono_left nhdsWithin_le_nhds
    have h3 : Tendsto (fun r : ℝ => r * (1 - r)⁻¹) (nhdsWithin 1 (Set.Iio 1)) atTop :=
      h2.mul_atTop one_pos h1
    have h4 : Tendsto (fun r : ℝ => r / (1 - r)) (nhdsWithin 1 (Set.Iio 1)) atTop := by
      simpa [div_eq_mul_inv] using h3
    have h5 : Tendsto (fun r : ℝ => Real.logb 10 (r / (1 - r)))
        (nhdsWithin 1 (Set.Iio 1)) atTop :=
      (Real.tendsto_logb_atTop (by norm_num : (1:ℝ) < 10)).comp h4
    have h6 := h5.const_mul_atTop (show (0:ℝ) < 10 by norm_num)
    have hfun : snrOfR = fun r : ℝ => 10 * Real.logb 10 (r / (1 - r)) := rfl
    rw [hfun]
    exact h6

/-- The index permutation of the flattened image induced by
`np.roll(img, (dx, dy), (0, 1))`. -/
def shiftEquiv (m n : ℕ) (dx dy : ℤ) : (ZMod m × ZMod n) ≃ (ZMod m × ZMod n) :=
  Equiv.prodCongr (Equiv.subRight ((dx : ZMod m))) (Equiv.subRight ((dy : ZMod n)))

lemma flattenImage_roll {m n : ℕ} (img : ZMod m → ZMod n → ℝ) (dx dy : ℤ) :
    flattenImage (roll dx dy img) =
      fun p => flattenImage img (shiftEquiv m n dx dy p) := by
  funext p
  cases p
  rfl

lemma flattenImage_roll_neg {m n : ℕ} (img : ZMod m → ZMod n → ℝ) (dx dy : ℤ) :
    flattenImage (roll (-dx) (-dy) img) =
      fun p => flattenImage img ((shiftEquiv m n dx dy).symm p) := by
  funext p
  cases p
  simp [flattenImage, roll, shiftEquiv, Equiv.prodCongr, Equiv.subRight,
    sub_neg_eq_add]

/-- C4: the spatial correlation heatmap has exact value 1 at its center and
is symmetric under negating the offset `(dx, dy)`. -/
theorem C4_heatmap_center_and_symmetry {m n : ℕ} [NeZero m] [NeZero n]
    (img : ZMod m → ZMod n → ℝ) (d : ℕ) (hd : 1 ≤ d) (dx dy : ℤ)
    (hdx : dx.natAbs ≤ d) (hdy : dy.natAbs ≤ d)
    (h1 : ((d : ℤ) + dx).toNat < 2 * d + 1) (h2 : ((d : ℤ) + dy).toNat < 2 * d + 1)
    (h3 : ((d : ℤ) - dx).toNat < 2 * d + 1) (h4 : ((d : ℤ) - dy).toNat < 2 * d + 1) :
    spatial_correlation_heatmap img d ⟨d, by omega⟩ ⟨d, by omega⟩ = 1 ∧
    spatial_correlation_heatmap img d ⟨((d : ℤ) + dx).toNat, h1⟩ ⟨((d : ℤ) + dy).toNat, h2⟩ =
      spatial_correlation_heatmap img d ⟨((d : ℤ) - dx).toNat, h3⟩ ⟨((d : ℤ) - dy).toNat, h4⟩ := by
  have ep : ((((d : ℤ) + dx).toNat : ℕ) : ℤ) - (d : ℤ) = dx := by omega
  have eq : ((((d : ℤ) + dy).toNat : ℕ) : ℤ) - (d : ℤ) = dy := by omega
  have ep2 : ((((d : ℤ) - dx).toNat : ℕ) : ℤ) - (d : ℤ) = -dx := by omega
  have eq2 : ((((d : ℤ) - dy).toNat : ℕ) : ℤ) - (d : ℤ) = -dy := by omega
  constructor
  · simp [spatial_correlation_heatmap]
  · simp only [spatial_correlation_heatmap, ep, eq, ep2, eq2]
    by_cases hzero : dx = 0 ∧ dy = 0
    · rw [if_pos hzero, if_pos (by simp [hzero.1, hzero.2])]
    · rw [if_neg hzero, if_neg (by simp only [neg_eq_zero]; exact hzero)]
      rw [flattenImage_roll img dx dy, flattenImage_roll_neg img dx dy]
      exact corr_comp_equiv_symm (flattenImage img) (shiftEquiv m n dx dy)

/-- Witness for C4 on a concrete nonconstant-free 1×1 image with `d = 1`,
`(dx, dy) = (1, 0)`. -/
theorem C4_witness :
    spatial_correlation_heatmap (fun _ _ : ZMod 1 => (0:ℝ)) 1 ⟨1, by omega⟩ ⟨1, by omega⟩ = 1 ∧
    spatial_correlation_heatmap (fun _ _ : ZMod 1 => (0:ℝ)) 1
        ⟨((1 : ℤ) + 1).toNat, by norm_num⟩ ⟨((1 : ℤ) + 0).toNat, by norm_num⟩ =
      spatial_correlation_heatmap (fun _ _ : ZMod 1 => (0:ℝ)) 1
        ⟨((1 : ℤ) - 1).toNat, by norm_num⟩ ⟨((1 : ℤ) - 0).toNat, by norm_num⟩ :=
  C4_heatmap_center_and_symmetry (fun _ _ => 0) 1 (by norm_num) 1 0
    (by norm_num) (by norm_num) (by norm_num) (by norm_num) (by norm_num) (by norm_num)

/-- C10: for a nonconstant image every heatmap entry lies in `[-1, 1]`:
the center is set to 1 and every off-center entry is a normalized inner
product bounded via Cauchy–Schwarz. -/
theorem C10_heatmap_entries_bounded {m n : ℕ} [NeZero m] [NeZero n]
    (img : ZMod m → ZMod n → ℝ) (d : ℕ) (hd : 1 ≤ d)
    (hnc : ∃ i j i2 j2, img i j ≠ img i2 j2) (p q : Fin (2 * d + 1)) :
    spatial_correlation_heatmap img d p q ∈ Set.Icc (-1 : ℝ) 1 := by
  have hx : centeredSq (flattenImage img) ≠ 0 := by
    apply centeredSq_ne_zero
    obtain ⟨i, j, i2, j2, h⟩ := hnc
    exact ⟨(i, j), (i2, j2), h⟩
  simp only [spatial_correlation_heatmap]
  split
  · norm_num
  · rw [flattenImage_roll]
    apply corr_mem_Icc _ _ hx
    rw [centeredSq_comp_equiv (flattenImage img)
      (shiftEquiv m n ((p.1 : ℤ) - (d : ℤ)) ((q.1 : ℤ) - (d : ℤ)))]
    exact hx

/-- Witness for C10: a concrete nonconstant 2×1 image, `d = 1`, entry `(0,0)`. -/
theorem C10_witness :
    spatial_correlation_heatmap
      (fun (i : ZMod 2) (_ : ZMod 1) => if i = 0 then (0:ℝ) else 1) 1 0 0 ∈
      Set.Icc (-1 : ℝ) 1 :=
  C10_heatmap_entries_bounded _ 1 (by norm_num)
    ⟨0, 0, 1, 0, by norm_num [show (1 : ZMod 2) ≠ 0 from by decide]⟩ 0 0

lemma windowedSum_prod {m n : ℕ} (x : Fin m → Fin n → ℝ)
    (i : Fin (m - 10)) (j : Fin (n - 10)) :
    windowedSum x i j = ∑ p : Fin 11 × Fin 11,
      ssimWindow p.1 p.2 * x (cropIdx i p.1) (cropIdx j p.2) := by
  unfold windowedSum
  exact (Fintype.sum_prod_type
    (fun p : Fin 11 × Fin 11 =>
      ssimWindow p.1 p.2 * x (cropIdx i p.1) (cropIdx j p.2))).symm

lemma sum_ssimWindow_prod : ∑ p : Fin 11 × Fin 11, ssimWindow p.1 p.2 = 1 := by
  rw [Fintype.sum_prod_type]
  exact sum_ssimWindow

/-- The windowed variance of the source SSIM computation is nonnegative:
the filtered square dominates the square of the filtered image. -/
lemma windowed_var_nonneg {m n : ℕ} (x : Fin m → Fin n → ℝ)
    (i : Fin (m - 10)) (j : Fin (n - 10)) :
    (windowedSum x i j) ^ 2 ≤ windowedSum (fun a b => x a b ^ 2) i j := by
  rw [windowedSum_prod x i j, windowedSum_prod (fun a b => x a b ^ 2) i j]
  have h := weighted_sq_mean_le (fun p : Fin 11 × Fin 11 => ssimWindow p.1 p.2)
    (fun p => x (cropIdx i p.1) (cropIdx j p.2))
    (fun p => ssimWindow_nonneg p.1 p.2) sum_ssimWindow_prod
  simpa using h

/-- On identical inputs every entry of the SSIM map equals 1: the numerator
and denominator coincide and the denominator is positive. -/
lemma ssimMap_self {m n : ℕ} (x : Fin m → Fin n → ℝ)
    (i : Fin (m - 10)) (j : Fin (n - 10)) : ssimMap x x i j = 1 := by
  have hsq : windowedSum (fun a b => x a b * x a b) i j
      = windowedSum (fun a b => x a b ^ 2) i j := by
    congr 1
    funext a b
    exact (pow_two (x a b)).symm
  have hvar := windowed_var_nonneg x i j
  have hC1 : 0 < ssimC1 := by unfold ssimC1; positivity
  have hC2 : 0 < ssimC2 := by unfold ssimC2; positivity
  simp only [ssimMap, hsq]
  set mu := windowedSum x i j with hmu
  set s2 := windowedSum (fun a b => x a b ^ 2) i j with hs2
  have hd1 : 0 < mu ^ 2 + mu ^ 2 + ssimC1 := by positivity
  have hd2 : 0 < (s2 - mu ^ 2) + (s2 - mu ^ 2) + ssimC2 := by nlinarith [hvar]
  have hnum : (2 * mu * mu + ssimC1) * (2 * (s2 - mu * mu) + ssimC2)
      = ((mu ^ 2 + mu ^ 2 + ssimC1) * ((s2 - mu ^ 2) + (s2 - mu ^ 2) + ssimC2)) := by
    ring
  rw [hnum]
  exact div_self (ne_of_gt (mul_pos hd1 hd2))

/-- On identical 2D inputs of size at least 11×11 the source `ssim` returns
exactly 1 (in real arithmetic). -/
lemma ssim_self {m n : ℕ} (x : Fin m → Fin n → ℝ) (hm : 11 ≤ m) (hn : 11 ≤ n) :
    ssim x x = 1 := by
  unfold ssim
  have h1 : (∑ i : Fin (m - 10), ∑ j : Fin (n - 10), ssimMap x x i j)
      = (((m - 10) * (n - 10) : ℕ) : ℝ) := by
    rw [Finset.sum_congr rfl fun i _ => Finset.sum_congr rfl fun j _ => ssimMap_self x i j]
    simp [Finset.sum_const, Finset.card_univ, Fintype.card_fin]
  rw [h1]
  refine div_self (Nat.cast_ne_zero.mpr ?_)
  have hm10 : m - 10 ≠ 0 := by omega
  have hn10 : n - 10 ≠ 0 := by omega
  exact Nat.mul_ne_zero hm10 hn10

/-- C6: for every 2D image of size at least 11×11, `calculate_ssim(img, img)`
equals exactly 1 in real arithmetic, since the SSIM map of identical inputs
is identically 1. -/
theorem C6_calculate_ssim_self {m n : ℕ} (f : List ℕ → ℝ)
    (hm : 11 ≤ m) (hn : 11 ≤ n) :
    calculate_ssim ⟨[m, n], f⟩ ⟨[m, n], f⟩ = Except.ok (some 1) := by
  unfold calculate_ssim
  simp [ssim_self (view2 m n f) hm hn]

/-- Witness for C6 on a concrete constant 11×11 image. -/
theorem C6_witness :
    calculate_ssim ⟨[11, 11], fun _ => (0:ℝ)⟩ ⟨[11, 11], fun _ => (0:ℝ)⟩ =
      Except.ok (some 1) :=
  C6_calculate_ssim_self _ (by norm_num) (by norm_num)

/-- Counterexample for C3: two same-shape 3D images whose third dimension is
2 (neither 1 nor 3) make `calculate_ssim` fall through every branch and
return Python `None` — no exception is raised, contradicting the claim that
every such input raises an error. -/
theorem C3_counterexample :
    calculate_ssim ⟨[11, 11, 2], fun _ => (0:ℝ)⟩ ⟨[11, 11, 2], fun _ => (0:ℝ)⟩ =
      Except.ok none := by
  simp [calculate_ssim]

/-- C3 (amended): `calculate_ssim` raises exactly when the shapes differ or
the dimensionality is neither 2 nor 3; for same-shape 3D input whose third
dimension is neither 1 nor 3 it raises nothing and silently returns `None`. -/
theorem C3_error_characterization (img1 img2 : NDImage) :
    ((∃ msg, calculate_ssim img1 img2 = Except.error msg) ↔
      img1.shape ≠ img2.shape ∨
        (img1.shape.length ≠ 2 ∧ img1.shape.length ≠ 3)) ∧
    (calculate_ssim img1 img2 = Except.ok none ↔
      (img1.shape = img2.shape ∧
        ∃ m n c, img1.shape = [m, n, c] ∧ c ≠ 3 ∧ c ≠ 1)) := by
  obtain ⟨s1, d1⟩ := img1
  obtain ⟨s2, d2⟩ := img2
  by_cases hsh : s1 = s2
  · subst hsh
    rcases s1 with _ | ⟨a, _ | ⟨b, _ | ⟨c, _ | ⟨e, t⟩⟩⟩⟩
    · simp [calculate_ssim]
    · simp [calculate_ssim]
    · simp [calculate_ssim]
    · by_cases hc3 : c = 3
      · subst hc3
        simp [calculate_ssim]
      · by_cases hc1 : c = 1
        · subst hc1
          simp [calculate_ssim]
        · constructor
          · simp [calculate_ssim, hc3, hc1]
          · simp [calculate_ssim, hc3, hc1]
            exact ⟨a, b, c, ⟨rfl, rfl, rfl⟩, hc3, hc1⟩
    · simp [calculate_ssim]
  · constructor
    · simp [calculate_ssim, hsh]
    · simp [calculate_ssim, hsh]

lemma listSum_map_range {M : Type*} [AddCommMonoid M] (f : ℕ → M) (k : ℕ) :
    ((List.range k).map f).sum = ∑ i ∈ Finset.range k, f i := by
  induction k with
  | zero => simp
  | succ k ih =>
      rw [List.range_succ, List.map_append, List.sum_append, Finset.sum_range_succ, ih]
      simp

lemma listSum_flatMap_range {M : Type*} [AddCommMonoid M] (K L : ℕ) (E : ℕ → ℕ → M) :
    ((List.range K).flatMap fun a => (List.range L).map fun b => E a b).sum
      = ∑ a ∈ Finset.range K, ∑ b ∈ Finset.range L, E a b := by
  rw [show ((List.range K).flatMap fun a => (List.range L).map fun b => E a b)
      = ((List.range K).map fun a => (List.range L).map fun b => E a b).flatten from rfl]
  rw [List.sum_flatten, List.map_map, listSum_map_range]
  exact Finset.sum_congr rfl fun a _ => listSum_map_range (E a) L

lemma listLength_flatMap_range {α : Type*} (K L : ℕ) (E : ℕ → ℕ → α) :
    ((List.range K).flatMap fun a => (List.range L).map fun b => E a b).length
      = K * L := by
  simp only [List.length_flatMap, Function.comp, List.length_map, List.length_range]
  rw [listSum_map_range]
  simp [Finset.sum_const, Finset.card_range, smul_eq_mul]

lemma colCorrelations_mean {m n : ℕ} [NeZero m]
    (img : ZMod m → ZMod n → ℝ) (dx dy : ℕ) :
    listMean (colCorrelations img dx dy) =
      (∑ col ∈ Finset.range n,
        pearsonCorrelation (column img col)
          (column (roll (dx : ℤ) (dy : ℤ) img) col)) / (n : ℝ) := by
  unfold colCorrelations listMean
  rw [List.length_map, List.length_range, listSum_map_range]
  congr 1
  exact Finset.sum_congr rfl fun col _ => corrcoef_eq_pearsonCorrelation _ _

/-- The loop-and-list implementation of
`compute_correlation_for_distance` equals the closed-form spec mean. -/
lemma compute_correlation_eq_spec {m n : ℕ} [NeZero m]
    (img : ZMod m → ZMod n → ℝ) (d : ℕ) :
    compute_correlation_for_distance img d = specDistanceCorrelation img d := by
  unfold compute_correlation_for_distance specDistanceCorrelation listMean
  rw [listSum_flatMap_range, listLength_flatMap_range]
  congr 1
  refine Finset.sum_congr rfl fun dx _ => Finset.sum_congr rfl fun dy _ => ?_
  by_cases h : dx = 0 ∧ dy = 0
  · simp [h]
  · rw [if_neg h, if_neg h]
    exact colCorrelations_mean img dx dy

/-- C7: `relative_distance_correlation` returns one scalar per distance
`d = 1 .. max_distance`, and the scalar for distance `d` is the mean over
all offsets `(dx, dy) ∈ [0, d]²` of the per-offset average column-wise
Pearson correlation between the image and its cyclic shift, the `(0, 0)`
offset contributing exactly 1. -/
theorem C7_relative_distance_correlation {m n : ℕ} [NeZero m]
    (img : ZMod m → ZMod n → ℝ) (D : ℕ) (hD : 1 ≤ D) :
    (relative_distance_correlation img D).length = D ∧
    ∀ k, k < D → (relative_distance_correlation img D)[k]? =
      some (specDistanceCorrelation img (k + 1)) := by
  constructor
  · unfold relative_distance_correlation
    rw [List.length_map, List.length_range']
  · intro k hk
    unfold relative_distance_correlation
    rw [List.getElem?_map, List.getElem?_range' 1 1 hk]
    rw [Option.map_some']
    have harg : 1 + 1 * k = k + 1 := by omega
    rw [harg, compute_correlation_eq_spec]

/-- Witness for C7 on a concrete 1×1 image with `max_distance = 1`. -/
theorem C7_witness :
    (relative_distance_correlation (fun _ _ : ZMod 1 => (0:ℝ)) 1).length = 1 ∧
    (relative_distance_correlation (fun _ _ : ZMod 1 => (0:ℝ)) 1)[0]? =
      some (specDistanceCorrelation (fun _ _ : ZMod 1 => (0:ℝ)) 1) := by
  have h := C7_relative_distance_correlation (fun _ _ : ZMod 1 => (0:ℝ)) 1 (by norm_num)
  exact ⟨h.1, h.2 0 (by norm_num)⟩

lemma foldl_set_length (l : List ℕ) (f : ℕ → ℝ) (arr : List ℝ) :
    (l.foldl (fun a i => a.set (i + 2) (f i)) arr).length = arr.length := by
  induction l generalizing arr with
  | nil => rfl
  | cons x xs ih => simp only [List.foldl_cons, ih, List.length_set]

/-- Element description of the loop `for i in range(k): arr[i + 2] = f i`
when every written index is in range. -/
lemma foldl_set_getElem (k : ℕ) (f : ℕ → ℝ) (arr : List ℝ)
    (hk : k + 2 ≤ arr.length) (j : ℕ) :
    ((List.range k).foldl (fun a i => a.set (i + 2) (f i)) arr)[j]? =
      if 2 ≤ j ∧ j < k + 2 then some (f (j - 2)) else arr[j]? := by
  induction k generalizing j with
  | zero =>
      simp only [List.range_zero, List.foldl_nil]
      rw [if_neg (by omega)]
  | succ k ih =>
      rw [List.range_succ, List.foldl_append]
      simp only [List.foldl_cons, List.foldl_nil]
      rw [List.getElem?_set]
      have hlen : ((List.range k).foldl (fun a i => a.set (i + 2) (f i)) arr).length
          = arr.length := foldl_set_length _ _ _
      by_cases hj : k + 2 = j
      · rw [if_pos hj, hlen, if_pos (by omega), if_pos (by omega)]
        subst hj
        have harg : k + 2 - 2 = k := by omega
        rw [harg]
      · rw [if_neg hj, ih (by omega) j]
        by_cases h2 : 2 ≤ j ∧ j < k + 2
        · rw [if_pos h2, if_pos (by omega)]
        · rw [if_neg h2, if_neg (by omega)]

/-- After the SNR loop, entries from index 2 on are exactly the per-pair
SNR values in order. -/
lemma snrLoopResult_drop {k : ℕ} (frames : ℕ → Fin k → ℝ) (N : ℕ) (hN : 1 ≤ N) :
    (snrLoopResult frames N).drop 2 = (List.range (N - 1)).map (snrPair frames) := by
  apply List.ext_getElem?
  intro j
  rw [List.getElem?_drop]
  unfold snrLoopResult
  rw [foldl_set_getElem (N - 1) _ _ (by rw [List.length_replicate]; omega) (2 + j)]
  by_cases hj : j < N - 1
  · rw [if_pos (by omega), List.getElem?_map, List.getElem?_range hj]
    have harg : 2 + j - 2 = j := by omega
    rw [harg, Option.map_some']
  · rw [if_neg (by omega), List.getElem?_replicate, if_neg (by omega)]
    symm
    apply List.getElem?_eq_none
    rw [List.length_map, List.length_range]
    omega

lemma drop_two_set_lt (l : List ℝ) (i : ℕ) (hi : i < 2) (v : ℝ) :
    (l.set i v).drop 2 = l.drop 2 := by
  apply List.ext_getElem?
  intro j
  rw [List.getElem?_drop, List.getElem?_drop, List.getElem?_set, if_neg (by omega)]

/-- C9: for `num_img ≥ 1` frames the SNR result array has length
`num_img + 1`; its first entry is the mean and its second the standard
deviation of the per-pair SNR values, and entry `i + 2` is the SNR of the
adjacent frame pair `(i, i + 1)` (`num_img - 1` values). -/
theorem C9_snr_result_array {k : ℕ} (frames : ℕ → Fin k → ℝ) (N : ℕ)
    (hN : 1 ≤ N) :
    (snrResultArray frames N).length = N + 1 ∧
    (snrResultArray frames N)[0]? =
      some (listMean ((List.range (N - 1)).map (snrPair frames))) ∧
    (snrResultArray frames N)[1]? =
      some (listStd ((List.range (N - 1)).map (snrPair frames))) ∧
    ∀ i, i < N - 1 → (snrResultArray frames N)[i + 2]? =
      some (snrPair frames i) := by
  have hloopLen : (snrLoopResult frames N).length = N + 1 := by
    unfold snrLoopResult
    rw [foldl_set_length, List.length_replicate]
  have hdrop := snrLoopResult_drop frames N hN
  simp only [snrResultArray]
  refine ⟨?_, ?_, ?_, ?_⟩
  · rw [List.length_set, List.length_set, hloopLen]
  · rw [List.getElem?_set, if_neg (by omega), List.getElem?_set, if_pos rfl,
      hloopLen, if_pos (by omega), hdrop]
  · rw [List.getElem?_set, if_pos rfl, List.length_set, hloopLen,
      if_pos (by omega), drop_two_set_lt _ 0 (by omega), hdrop]
  · intro i hi
    rw [List.getElem?_set, if_neg (by omega), List.getElem?_set, if_neg (by omega)]
    unfold snrLoopResult
    rw [foldl_set_getElem (N - 1) _ _ (by rw [List.length_replicate]; omega) (i + 2)]
    rw [if_pos (by omega)]
    have harg : i + 2 - 2 = i := by omega
    rw [harg]

/-- Witness for C9 with two concrete single-pixel frames. -/
theorem C9_witness :
    (snrResultArray (fun (_ : ℕ) (_ : Fin 1) => (0:ℝ)) 2).length = 3 ∧
    (snrResultArray (fun (_ : ℕ) (_ : Fin 1) => (0:ℝ)) 2)[0]? =
      some (listMean ((List.range (2 - 1)).map (snrPair fun (_ : ℕ) (_ : Fin 1) => (0:ℝ)))) ∧
    (snrResultArray (fun (_ : ℕ) (_ : Fin 1) => (0:ℝ)) 2)[1]? =
      some (listStd ((List.range (2 - 1)).map (snrPair fun (_ : ℕ) (_ : Fin 1) => (0:ℝ)))) ∧
    (snrResultArray (fun (_ : ℕ) (_ : Fin 1) => (0:ℝ)) 2)[0 + 2]? =
      some (snrPair (fun (_ : ℕ) (_ : Fin 1) => (0:ℝ)) 0) := by
  have h := C9_snr_result_array (k := 1) (fun _ _ => 0) 2 (by norm_num)
  exact ⟨h.1, h.2.1, h.2.2.1, h.2.2.2 0 (by norm_num)⟩
